import Mathlib

/-!
Verification development for the A2A healthcare multi-agent repository.

The repository's delegation core (Call-Budget Ledger, Plan-First Gate,
Coordinator merge semantics, LRU Session Store) lives in the third-party
`beeai_framework` library; the repository itself only declares the
configuration (`ConditionalRequirement(..., max_invocations=1,
consecutive_allowed=False)`, `ConditionalRequirement(thinktool,
force_at_step=1, ...)`, `LRUMemoryManager(maxsize=100)` in
`a2a_healthcare_agent.py`).  Those parts are therefore modelled from the
specification's words.  The doctor lookup (`mcpserver.py`) and the
dollar-sign escaping in `policy_agent.py` are embedded directly from the
source.
-/

/-- Modelled from the spec: the three specialist capabilities of the
reference system (insurance-policy lookup, medical research, provider
lookup); the concrete invocation handles are external collaborators. -/
inductive Cap
  | policy
  | research
  | provider
deriving DecidableEq

/-- Modelled from the spec: the capability names used for selection and
attribution (spec section 8 scenario names). -/
def Cap.name : Cap → String
  | .policy => "PolicyLookup"
  | .research => "Research"
  | .provider => "ProviderLookup"

/-- Modelled from the spec: per-session state of the Call-Budget Ledger and
the Plan-First Gate: per-capability invocation counters, the last-invoked
capability, and the gate state (`planned = false` is `UNPLANNED`,
`planned = true` is `PLANNED`). -/
structure LedgerState where
  counts : Cap → Nat
  lastInvoked : Option Cap
  planned : Bool

/-- Modelled from the spec: a fresh session starts with zero counters, no
last-invoked capability, and the gate in `UNPLANNED`. -/
def initState : LedgerState :=
  { counts := fun _ => 0, lastInvoked := none, planned := false }

/-- The reference configuration of per-capability maxima: the source
declares `max_invocations=1` for each of the three specialist handoff
tools (`a2a_healthcare_agent.py`, requirements list). -/
def refMaxima : Cap → Nat := fun _ => 1

/-- Modelled from the spec: `can_invoke(session, capability)` returns false
if (a) the capability's invocation count has reached its configured
maximum, or (b) the capability equals the last-invoked capability; true
otherwise (spec section 4.2). -/
def canInvoke (maxima : Cap → Nat) (s : LedgerState) (c : Cap) : Bool :=
  decide (s.counts c < maxima c ∧ s.lastInvoked ≠ some c)

/-- Modelled from the spec: `record_invocation(session, capability)`
increments the capability's count and sets last-invoked
(spec section 4.2). -/
def recordInvocation (s : LedgerState) (c : Cap) : LedgerState :=
  { s with
    counts := fun c2 => if c2 = c then s.counts c2 + 1 else s.counts c2,
    lastInvoked := some c }

/-- Modelled from the spec: the observable events of one session of the
delegation core: a planning step, or the invocation of a capability. -/
inductive Event
  | plan
  | invoke (c : Cap)
deriving DecidableEq

/-- Modelled from the spec: the guarded transitions of the delegation core.
A planning step is allowed only while the gate is `UNPLANNED` and moves it
to `PLANNED` (spec section 4.3); an invocation is allowed only once the
gate is `PLANNED` and `can_invoke` permits it, and records itself in the
ledger (spec section 4.4, steps 2-6). -/
inductive Step (maxima : Cap → Nat) : LedgerState → Event → LedgerState → Prop
  | plan {s : LedgerState} :
      s.planned = false → Step maxima s Event.plan { s with planned := true }
  | invoke {s : LedgerState} {c : Cap} :
      s.planned = true → canInvoke maxima s c = true →
      Step maxima s (Event.invoke c) (recordInvocation s c)

/-- Modelled from the spec: the states of the delegation core reachable
from a fresh session, together with the event trace that reaches them. -/
inductive Reaches (maxima : Cap → Nat) : List Event → LedgerState → Prop
  | nil : Reaches maxima [] initState
  | snoc {t : List Event} {s : LedgerState} {e : Event} {s2 : LedgerState} :
      Reaches maxima t s → Step maxima s e s2 → Reaches maxima (t ++ [e]) s2

/-- Two adjacent events of a trace never invoke the same capability. -/
def NoConsecutiveRepeat (t : List Event) : Prop :=
  List.Chain'
    (fun a b =>
      match a, b with
      | Event.invoke c1, Event.invoke c2 => c1 ≠ c2
      | _, _ => True)
    t

/-- Internal invariant tying a reachable state to its trace: the
last-invoked field and the gate state mirror the trace's last event. -/
def lastEventInv (t : List Event) (s : LedgerState) : Prop :=
  match t.getLast? with
  | none => s.lastInvoked = none ∧ s.planned = false ∧ t = []
  | some Event.plan => s.lastInvoked = none ∧ s.planned = true
  | some (Event.invoke c) => s.lastInvoked = some c ∧ s.planned = true

/-- Internal invariant: a nonempty trace starts with the planning event and
contains exactly one planning event. -/
def planPrefixInv (t : List Event) : Prop :=
  t = [] ∨ (t.head? = some Event.plan ∧ t.count Event.plan = 1)

theorem reaches_inv {maxima : Cap → Nat} {t : List Event} {s : LedgerState}
    (h : Reaches maxima t s) :
    (∀ c, s.counts c ≤ maxima c) ∧ lastEventInv t s ∧
      NoConsecutiveRepeat t ∧ planPrefixInv t := by
  induction h with
  | nil =>
    refine ⟨fun c => Nat.zero_le _, ?_, ?_, Or.inl rfl⟩
    · simp [lastEventInv, initState]
    · simp [NoConsecutiveRepeat]
  | snoc hr hstep ih =>
    obtain ⟨ihcount, ihlast, ihchain, ihplan⟩ := ih
    cases hstep with
    | plan hp =>
      rename_i t s
      have ht : t = [] := by
        unfold lastEventInv at ihlast
        cases hgl : t.getLast? with
        | none => rw [hgl] at ihlast; exact ihlast.2.2
        | some e =>
          cases e with
          | plan => rw [hgl] at ihlast; rw [ihlast.2] at hp; cases hp
          | invoke c => rw [hgl] at ihlast; rw [ihlast.2] at hp; cases hp
      subst ht
      refine ⟨ihcount, ?_, ?_, ?_⟩
      · simp [lastEventInv]
        unfold lastEventInv at ihlast
        simp at ihlast
        exact ihlast.1
      · simp [NoConsecutiveRepeat]
      · exact Or.inr (by simp)
    | invoke hp hc =>
      rename_i t s c
      have hcan := of_decide_eq_true hc
      have htne : t ≠ [] := by
        intro ht
        subst ht
        unfold lastEventInv at ihlast
        simp at ihlast
        rw [ihlast.2] at hp
        cases hp
      refine ⟨?_, ?_, ?_, ?_⟩
      · intro c2
        by_cases hcc : c2 = c
        · subst hcc
          simpa [recordInvocation] using Nat.succ_le_of_lt hcan.1
        · simpa [recordInvocation, hcc] using ihcount c2
      · unfold lastEventInv
        simp [recordInvocation, hp]
      · unfold NoConsecutiveRepeat at ihchain ⊢
        rw [List.chain'_append]
        refine ⟨ihchain, List.chain'_singleton _, ?_⟩
        intro x hx y hy
        simp at hy
        subst hy
        unfold lastEventInv at ihlast
        cases hgl : t.getLast? with
        | none => simp [hgl] at hx
        | some e =>
          rw [hgl] at ihlast
          simp [hgl] at hx
          subst hx
          cases e with
          | plan => trivial
          | invoke c1 =>
            show c1 ≠ c
            intro hcc
            subst hcc
            exact hcan.2 ihlast.1
      · rcases ihplan with h0 | ⟨hhead, hcount⟩
        · exact absurd h0 htne
        · refine Or.inr ⟨?_, ?_⟩
          · rw [List.head?_append_of_ne_nil _ htne]
            exact hhead
          · rw [List.count_append]
            simp [hcount]

/-- Claim C1: in every reachable state of a session of the delegation core,
each capability's invocation counter never exceeds its configured
per-capability maximum (instantiated at `refMaxima`, which assigns 1 to
each of the three specialist capabilities as the source's
`max_invocations=1` declarations do), and the trace never invokes the same
capability twice in immediate succession. -/
theorem invocation_budget_invariant (maxima : Cap → Nat) (t : List Event)
    (s : LedgerState) (h : Reaches maxima t s) :
    (∀ c, s.counts c ≤ maxima c) ∧ NoConsecutiveRepeat t := by
  obtain ⟨h1, _, h3, _⟩ := reaches_inv h
  exact ⟨h1, h3⟩

/-- Witness for C1: the concrete trace plan-then-invoke-PolicyLookup is
reachable under the reference maxima; the theorem yields the counter bound
at the PolicyLookup capability and the no-consecutive-repeat property of
that trace. -/
theorem invocation_budget_invariant_witness :
    (recordInvocation { initState with planned := true } Cap.policy).counts
        Cap.policy ≤ refMaxima Cap.policy ∧
      NoConsecutiveRepeat [Event.plan, Event.invoke Cap.policy] := by
  have h : Reaches refMaxima ([] ++ [Event.plan] ++ [Event.invoke Cap.policy])
      (recordInvocation { initState with planned := true } Cap.policy) :=
    Reaches.snoc (Reaches.snoc Reaches.nil (Step.plan rfl))
      (Step.invoke rfl (by decide))
  have h2 := invocation_budget_invariant refMaxima _ _ h
  exact ⟨h2.1 Cap.policy, h2.2⟩

/-- Claim C2: `can_invoke` returns false exactly when the capability's
count has reached its configured maximum or the capability equals the
session's last-invoked capability; and the reference configuration assigns
maximum 1 to every specialist capability. -/
theorem canInvoke_false_characterization (maxima : Cap → Nat)
    (s : LedgerState) (c : Cap) :
    (canInvoke maxima s c = false ↔
      (maxima c ≤ s.counts c ∨ s.lastInvoked = some c)) ∧
    refMaxima c = 1 := by
  constructor
  · unfold canInvoke
    rw [decide_eq_false_iff_not, not_and_or, Nat.not_lt, not_not]
  · rfl

/-- Witness for C2: the characterization evaluated at the fresh session and
the PolicyLookup capability under the reference maxima. -/
theorem canInvoke_false_characterization_witness :
    (canInvoke refMaxima initState Cap.policy = false ↔
      (refMaxima Cap.policy ≤ initState.counts Cap.policy ∨
        initState.lastInvoked = some Cap.policy)) ∧
    refMaxima Cap.policy = 1 :=
  canInvoke_false_characterization refMaxima initState Cap.policy

/-- Claim C3: the Plan-First Gate starts in `UNPLANNED`; no step ever moves
the gate from `PLANNED` back to `UNPLANNED`; and along every reachable
trace the planning event occurs at most once, only as the very first event
(the first decision point), and every invocation event occurs strictly
after it (the head of any trace containing an invocation is the planning
event, so planning is never repeated before later delegations). -/
theorem plan_first_gate_temporal (maxima : Cap → Nat) :
    initState.planned = false ∧
    (∀ s e s2, Step maxima s e s2 → s.planned = true → s2.planned = true) ∧
    (∀ t s, Reaches maxima t s →
      t.count Event.plan ≤ 1 ∧
      (Event.plan ∈ t → t.head? = some Event.plan) ∧
      (∀ c, Event.invoke c ∈ t → t.head? = some Event.plan)) := by
  refine ⟨rfl, ?_, ?_⟩
  · intro s e s2 hstep hp
    cases hstep with
    | plan h0 => exact rfl
    | invoke h0 hc => simpa [recordInvocation] using hp
  · intro t s h
    obtain ⟨_, _, _, hplan⟩ := reaches_inv h
    rcases hplan with h0 | ⟨hhead, hcount⟩
    · subst h0
      refine ⟨by simp, by simp, by simp⟩
    · refine ⟨Nat.le_of_eq hcount, fun _ => hhead, fun c _ => hhead⟩

/-- Witness for C3: the gate-monotonicity part applied to a concrete
invocation step from a planned state, and the trace part applied to the
concrete reachable trace plan-then-invoke-Research. -/
theorem plan_first_gate_temporal_witness :
    (recordInvocation { initState with planned := true } Cap.research).planned
        = true ∧
      ([Event.plan, Event.invoke Cap.research].count Event.plan ≤ 1 ∧
        [Event.plan, Event.invoke Cap.research].head? = some Event.plan) := by
  have hmain := plan_first_gate_temporal refMaxima
  have hstep : Step refMaxima { initState with planned := true }
      (Event.invoke Cap.research)
      (recordInvocation { initState with planned := true } Cap.research) :=
    Step.invoke rfl (by decide)
  have hreach : Reaches refMaxima ([] ++ [Event.plan] ++ [Event.invoke Cap.research])
      (recordInvocation { initState with planned := true } Cap.research) :=
    Reaches.snoc (Reaches.snoc Reaches.nil (Step.plan rfl)) hstep
  have htr := hmain.2.2 ([] ++ [Event.plan] ++ [Event.invoke Cap.research]) _ hreach
  have hm : Event.invoke Cap.research ∈
      ([] ++ [Event.plan] ++ [Event.invoke Cap.research]) := by simp
  exact ⟨hmain.2.1 _ _ _ hstep rfl, htr.1, htr.2.2 Cap.research hm⟩

/-- Modelled from the spec: the outcome of one capability invocation as
seen by the Coordinator: either free-text success, or a failure
(timeout, internal error, `CapabilityInvocationError`). -/
inductive InvocationOutcome
  | success (answer : String)
  | failure
deriving DecidableEq

/-- Modelled from the spec: a `DelegationResult` tagged with its source
capability name for attribution, the answer text, and a success flag. -/
structure DelegationResult where
  source : String
  answer : String
  success : Bool
deriving DecidableEq

/-- Modelled from the spec: the merged `FinalAnswer`: attributed
contributions, plus the explicit no-information-obtained marker required
when zero capabilities produced successful results. -/
structure FinalAnswer where
  contributions : List DelegationResult
  noInfo : Bool
deriving DecidableEq

/-- Modelled from the spec: the turn-level error taxonomy visible to the
caller of `Coordinator.handle` (`AllDelegationsFailedError`). -/
inductive TurnError
  | allDelegationsFailed
deriving DecidableEq

/-- Modelled from the spec: the per-capability results of the invocation
phase (spec section 4.4, steps 5-6, and section 7): a failed invocation is
degraded to an "unavailable" contribution attributed to its capability,
never a hard failure of the whole turn. -/
def delegationResults (selected : List Cap)
    (outcome : Cap → InvocationOutcome) : List DelegationResult :=
  selected.map fun c =>
    match outcome c with
    | InvocationOutcome.success a =>
        { source := c.name, answer := a, success := true }
    | InvocationOutcome.failure =>
        { source := c.name, answer := "unavailable", success := false }

/-- Modelled from the spec: the merge step (spec section 4.4, step 7):
contributions are exactly the delegation results, each keeping its source
attribution, and the no-information marker is set exactly when no
contribution is successful. -/
def mergeResults (rs : List DelegationResult) : FinalAnswer :=
  { contributions := rs, noInfo := rs.all fun r => !r.success }

/-- Modelled from the spec: the delegation/failure phase of
`Coordinator.handle` for one turn (spec section 4.4 failure semantics):
the turn fails with `AllDelegationsFailedError` when capabilities were
selected and every one of them failed; otherwise the results (degraded
where failed) are merged into a `FinalAnswer`. -/
def handleTurn (selected : List Cap)
    (outcome : Cap → InvocationOutcome) : Except TurnError FinalAnswer :=
  if selected ≠ [] ∧ ∀ c ∈ selected, outcome c = InvocationOutcome.failure then
    Except.error TurnError.allDelegationsFailed
  else
    Except.ok (mergeResults (delegationResults selected outcome))

/-- Claim C4: if at least one selected capability fails while at least one
succeeds, the turn succeeds, the failed capabilities appear as
"unavailable" contributions and the successful ones keep their answers;
and the turn fails with `AllDelegationsFailedError` exactly when at least
one capability was selected and every selected capability's invocation
failed. -/
theorem handleTurn_failure_semantics :
    (∀ selected outcome,
      (∃ c ∈ selected, outcome c = InvocationOutcome.failure) →
      (∃ c ∈ selected, outcome c ≠ InvocationOutcome.failure) →
      handleTurn selected outcome =
        Except.ok (mergeResults (delegationResults selected outcome)) ∧
      (∀ c ∈ selected, outcome c = InvocationOutcome.failure →
        ({ source := c.name, answer := "unavailable", success := false } :
          DelegationResult) ∈ delegationResults selected outcome) ∧
      (∀ c a, c ∈ selected → outcome c = InvocationOutcome.success a →
        ({ source := c.name, answer := a, success := true } :
          DelegationResult) ∈ delegationResults selected outcome)) ∧
    (∀ selected outcome,
      handleTurn selected outcome = Except.error TurnError.allDelegationsFailed
        ↔ (selected ≠ [] ∧
            ∀ c ∈ selected, outcome c = InvocationOutcome.failure)) := by
  have hmemf : ∀ (selected : List Cap) (outcome : Cap → InvocationOutcome)
      (c : Cap), c ∈ selected → outcome c = InvocationOutcome.failure →
      ({ source := c.name, answer := "unavailable", success := false } :
        DelegationResult) ∈ delegationResults selected outcome := by
    intro selected outcome c hc hout
    unfold delegationResults
    exact List.mem_map.mpr ⟨c, hc, by simp [hout]⟩
  have hmems : ∀ (selected : List Cap) (outcome : Cap → InvocationOutcome)
      (c : Cap) (a : String), c ∈ selected →
      outcome c = InvocationOutcome.success a →
      ({ source := c.name, answer := a, success := true } :
        DelegationResult) ∈ delegationResults selected outcome := by
    intro selected outcome c a hc hout
    unfold delegationResults
    exact List.mem_map.mpr ⟨c, hc, by simp [hout]⟩
  constructor
  · intro selected outcome hfail hsucc
    obtain ⟨cs, hcs, hcsout⟩ := hsucc
    have hcond : ¬(selected ≠ [] ∧
        ∀ c ∈ selected, outcome c = InvocationOutcome.failure) := by
      intro ⟨_, hall⟩
      exact hcsout (hall cs hcs)
    refine ⟨?_, fun c hc hout => hmemf selected outcome c hc hout,
      fun c a hc hout => hmems selected outcome c a hc hout⟩
    unfold handleTurn
    rw [if_neg hcond]
  · intro selected outcome
    unfold handleTurn
    by_cases hcond : selected ≠ [] ∧
        ∀ c ∈ selected, outcome c = InvocationOutcome.failure
    · rw [if_pos hcond]
      exact iff_of_true rfl hcond
    · rw [if_neg hcond]
      exact iff_of_false (by simp) hcond

/-- Outcome function used by the witness for C4: PolicyLookup fails, the
other capabilities succeed. -/
def mixedOutcome : Cap → InvocationOutcome
  | Cap.policy => InvocationOutcome.failure
  | Cap.research => InvocationOutcome.success "found studies"
  | Cap.provider => InvocationOutcome.success "found doctors"

/-- Witness for C4: with PolicyLookup failing and Research succeeding, the
turn succeeds, PolicyLookup's contribution is the degraded "unavailable"
record, and Research's answer is kept. -/
theorem handleTurn_failure_semantics_witness :
    handleTurn [Cap.policy, Cap.research] mixedOutcome =
      Except.ok (mergeResults
        (delegationResults [Cap.policy, Cap.research] mixedOutcome)) ∧
    ({ source := Cap.policy.name, answer := "unavailable", success := false } :
      DelegationResult) ∈
        delegationResults [Cap.policy, Cap.research] mixedOutcome ∧
    ({ source := Cap.research.name, answer := "found studies",
        success := true } : DelegationResult) ∈
      delegationResults [Cap.policy, Cap.research] mixedOutcome := by
  have h := handleTurn_failure_semantics.1 [Cap.policy, Cap.research]
    mixedOutcome ⟨Cap.policy, by simp, rfl⟩ ⟨Cap.research, by simp, by decide⟩
  exact ⟨h.1, h.2.1 Cap.policy (by simp) rfl,
    h.2.2 Cap.research "found studies" (by simp) rfl⟩

/-- Claim C8: every `FinalAnswer` produced by a turn attributes each
contribution to the capability that supplied it (a successful
contribution's answer is exactly that capability's output, a failed one is
the degraded "unavailable" note for a capability that actually failed), the
contributions are exactly the delegation results (nothing fabricated), and
the explicit no-information marker is set exactly when zero capabilities
produced successful results. -/
theorem finalAnswer_attribution (selected : List Cap)
    (outcome : Cap → InvocationOutcome) (fa : FinalAnswer)
    (h : handleTurn selected outcome = Except.ok fa) :
    fa.contributions = delegationResults selected outcome ∧
    (∀ r ∈ fa.contributions, ∃ c ∈ selected, r.source = c.name ∧
      (r.success = true → outcome c = InvocationOutcome.success r.answer) ∧
      (r.success = false → outcome c = InvocationOutcome.failure ∧
        r.answer = "unavailable")) ∧
    (fa.noInfo = true ↔ ∀ r ∈ fa.contributions, r.success = false) := by
  have hfa : fa = mergeResults (delegationResults selected outcome) := by
    unfold handleTurn at h
    by_cases hcond : selected ≠ [] ∧
        ∀ c ∈ selected, outcome c = InvocationOutcome.failure
    · rw [if_pos hcond] at h; cases h
    · rw [if_neg hcond] at h
      exact (Except.ok.inj h).symm
  subst hfa
  refine ⟨rfl, ?_, ?_⟩
  · intro r hr
    unfold mergeResults delegationResults at hr
    simp only [List.mem_map] at hr
    obtain ⟨c, hc, hrc⟩ := hr
    refine ⟨c, hc, ?_⟩
    subst hrc
    cases hout : outcome c with
    | success a => simp [hout]
    | failure => simp [hout]
  · unfold mergeResults
    simp [List.all_eq_true]

/-- Outcome function used by the witness for C8: every capability
succeeds with a fixed answer. -/
def successOutcome : Cap → InvocationOutcome :=
  fun _ => InvocationOutcome.success "covered"

/-- Witness for C8: a concrete successful turn over the single selected
capability PolicyLookup; the contributions are exactly the delegation
results and the no-information marker characterization holds for it. -/
theorem finalAnswer_attribution_witness :
    (mergeResults (delegationResults [Cap.policy] successOutcome)).contributions
        = delegationResults [Cap.policy] successOutcome ∧
    ((mergeResults (delegationResults [Cap.policy] successOutcome)).noInfo = true
      ↔ ∀ r ∈ (mergeResults
          (delegationResults [Cap.policy] successOutcome)).contributions,
          r.success = false) := by
  have hok : handleTurn [Cap.policy] successOutcome =
      Except.ok (mergeResults (delegationResults [Cap.policy] successOutcome)) := by
    have hcond : ¬([Cap.policy] ≠ [] ∧ ∀ c ∈ [Cap.policy],
        successOutcome c = InvocationOutcome.failure) := by
      intro h0
      exact absurd (h0.2 Cap.policy (by simp)) (by decide)
    unfold handleTurn
    rw [if_neg hcond]
  have h := finalAnswer_attribution [Cap.policy] successOutcome
    (mergeResults (delegationResults [Cap.policy] successOutcome)) hok
  exact ⟨h.1, h.2.2⟩


/-- Modelled from the spec: one Session Store entry: the session id, the
logical time of its last touch, and its content (accumulated message
history, opaque here). -/
structure StoreEntry where
  sid : String
  lastTouch : Nat
  content : String
deriving DecidableEq

/-- Modelled from the spec: the bounded-capacity LRU Session Store
(spec section 4.5): entries kept in most-recent-first order, a logical
clock stamping touches, and the capacity configured at construction
(reference default 100, the source's `LRUMemoryManager(maxsize=100)`). -/
structure Store where
  capacity : Nat
  clock : Nat
  entries : List StoreEntry
deriving DecidableEq

/-- Modelled from the spec: the operations of the Session Store:
`get_or_create(id)` and `put(session)`, both touching recency. -/
inductive StoreOp
  | getOrCreate (id : String)
  | put (id : String) (content : String)
deriving DecidableEq

/-- Modelled from the spec: a freshly constructed store of the given
capacity is empty. -/
def initStore (c : Nat) : Store :=
  { capacity := c, clock := 0, entries := [] }

/-- Modelled from the spec: inserting the freshly touched entry at the
front of the recency list; if the store then exceeds its capacity the last
entry — the least-recently-touched one — is silently evicted. -/
def pushCapped (capacity : Nat) (x : StoreEntry) (l : List StoreEntry) :
    List StoreEntry :=
  if capacity < (x :: l).length then (x :: l).dropLast else x :: l

/-- Modelled from the spec: touching a session id: the entry moves to the
front with a fresh touch stamp (creating it if absent, keeping or
replacing its content), evicting the least-recently-touched entry if the
store would exceed its capacity. -/
def storeTouch (st : Store) (id : String) (newContent : Option String) : Store :=
  { capacity := st.capacity, clock := st.clock + 1,
    entries := pushCapped st.capacity
      { sid := id, lastTouch := st.clock,
        content := newContent.getD
          (((st.entries.find? fun e => e.sid == id).map StoreEntry.content).getD "") }
      (st.entries.filter fun e => e.sid ≠ id) }

/-- Modelled from the spec: `get_or_create` touches recency without
replacing content; `put` touches recency and updates content. -/
def applyOp (st : Store) : StoreOp → Store
  | StoreOp.getOrCreate id => storeTouch st id none
  | StoreOp.put id content => storeTouch st id (some content)

/-- Modelled from the spec: running a sequence of Session Store operations
from a freshly constructed store. -/
def runOps (capacity : Nat) (ops : List StoreOp) : Store :=
  ops.foldl applyOp (initStore capacity)

/-- The session ids currently held by a list of store entries. -/
def storeIds (l : List StoreEntry) : List String :=
  l.map StoreEntry.sid

/-- Internal invariant of the Session Store: the size never exceeds the
capacity, the capacity is the constructed one, every entry was touched
before the current clock, and entries are ordered strictly by decreasing
last-touch time (most recent first). -/
def StoreInv (capacity : Nat) (st : Store) : Prop :=
  st.capacity = capacity ∧
  st.entries.length ≤ capacity ∧
  (∀ e ∈ st.entries, e.lastTouch < st.clock) ∧
  st.entries.Pairwise fun a b => b.lastTouch < a.lastTouch

theorem length_pushCapped {capacity : Nat} {x : StoreEntry}
    {l : List StoreEntry} (h : l.length ≤ capacity) :
    (pushCapped capacity x l).length ≤ capacity := by
  unfold pushCapped
  split
  · rw [List.length_dropLast, List.length_cons]
    omega
  · rename_i hok
    rw [List.length_cons] at hok ⊢
    omega

theorem mem_pushCapped {capacity : Nat} {x : StoreEntry} {l : List StoreEntry}
    {e : StoreEntry} (h : e ∈ pushCapped capacity x l) : e = x ∨ e ∈ l := by
  unfold pushCapped at h
  split at h
  · exact List.mem_cons.mp ((List.dropLast_sublist (x :: l)).mem h)
  · exact List.mem_cons.mp h

theorem pairwise_pushCapped {capacity : Nat} {x : StoreEntry}
    {l : List StoreEntry}
    (h : (x :: l).Pairwise fun a b => b.lastTouch < a.lastTouch) :
    (pushCapped capacity x l).Pairwise fun a b => b.lastTouch < a.lastTouch := by
  unfold pushCapped
  split
  · exact h.sublist (List.dropLast_sublist _)
  · exact h

theorem storeInv_touch {capacity : Nat} {st : Store} (h : StoreInv capacity st)
    (id : String) (newContent : Option String) :
    StoreInv capacity (storeTouch st id newContent) := by
  obtain ⟨hcap, hlen, hclock, hsort⟩ := h
  have hsub : (st.entries.filter fun e => e.sid ≠ id).Sublist st.entries :=
    List.filter_sublist _
  refine ⟨?_, ?_, ?_, ?_⟩
  · exact hcap
  · show (pushCapped st.capacity _ _).length ≤ capacity
    rw [← hcap]
    refine length_pushCapped (le_trans hsub.length_le ?_)
    rw [hcap]
    exact hlen
  · intro e he
    show e.lastTouch < st.clock + 1
    rcases mem_pushCapped he with h0 | h0
    · subst h0
      exact Nat.lt_succ_self _
    · exact Nat.lt_succ_of_lt (hclock e (hsub.mem h0))
  · show (pushCapped st.capacity _ _).Pairwise _
    refine pairwise_pushCapped (List.pairwise_cons.mpr ⟨?_, hsort.sublist hsub⟩)
    intro e he
    exact hclock e (hsub.mem he)

theorem storeInv_runOps (capacity : Nat) (ops : List StoreOp) :
    StoreInv capacity (runOps capacity ops) := by
  suffices hgen : ∀ st, StoreInv capacity st →
      StoreInv capacity (ops.foldl applyOp st) by
    refine hgen (initStore capacity) ?_
    exact ⟨rfl, by simp [initStore], by simp [initStore], by simp [initStore]⟩
  induction ops with
  | nil => intro st h; exact h
  | cons op rest ih =>
    intro st h
    refine ih (applyOp st op) ?_
    cases op with
    | getOrCreate id => exact storeInv_touch h id none
    | put id content => exact storeInv_touch h id (some content)

theorem head_mem_pushCapped {capacity : Nat} {x : StoreEntry}
    {l : List StoreEntry} (h : 1 ≤ capacity) : x ∈ pushCapped capacity x l := by
  unfold pushCapped
  split
  · rename_i hover
    cases l with
    | nil => simp at hover; omega
    | cons y ys =>
      rw [List.dropLast_cons₂]
      exact List.mem_cons_self _ _
  · exact List.mem_cons_self _ _

theorem sid_mem_storeTouch (st : Store) (id : String) (nc : Option String)
    (h : 1 ≤ st.capacity) : id ∈ storeIds (storeTouch st id nc).entries := by
  unfold storeTouch storeIds
  exact List.mem_map.mpr ⟨_, head_mem_pushCapped h, rfl⟩

theorem pushCapped_evicted_min {capacity : Nat} {x : StoreEntry}
    {l : List StoreEntry} {e : StoreEntry}
    (hsort : l.Pairwise fun a b => b.lastTouch < a.lastTouch)
    (he : e ∈ l) (hgone : e.sid ∉ storeIds (pushCapped capacity x l)) :
    capacity ≤ l.length ∧ ∀ y ∈ l, e.lastTouch ≤ y.lastTouch := by
  unfold pushCapped at hgone
  split at hgone
  · rename_i hover
    rw [List.length_cons] at hover
    refine ⟨by omega, ?_⟩
    cases l with
    | nil => cases he
    | cons z zs =>
      rw [List.dropLast_cons₂] at hgone
      have hgone2 : e ∉ (z :: zs).dropLast := by
        intro hmem
        refine hgone ?_
        unfold storeIds
        exact List.mem_map.mpr ⟨e, List.mem_cons_of_mem _ hmem, rfl⟩
      have hsplit : (z :: zs).dropLast ++ [(z :: zs).getLast (by simp)] = z :: zs :=
        List.dropLast_append_getLast (by simp)
      have helast : e = (z :: zs).getLast (by simp) := by
        have hm := he
        rw [← hsplit] at hm
        rcases List.mem_append.mp hm with h0 | h0
        · exact absurd h0 hgone2
        · simpa using h0
      intro y hy
      rw [← hsplit] at hy
      rcases List.mem_append.mp hy with h0 | h0
      · rw [← hsplit] at hsort
        have hlt := (List.pairwise_append.mp hsort).2.2 y h0
          ((z :: zs).getLast (by simp)) (by simp)
        rw [helast]
        exact Nat.le_of_lt hlt
      · simp at h0
        rw [helast, h0]
  · exfalso
    refine hgone ?_
    unfold storeIds
    exact List.mem_map.mpr ⟨e, List.mem_cons_of_mem _ he, rfl⟩

theorem storeTouch_evicts_lru {capacity : Nat} {st : Store}
    (h : StoreInv capacity st) (id : String) (nc : Option String)
    {e : StoreEntry} (he : e ∈ st.entries)
    (hgone : e.sid ∉ storeIds (storeTouch st id nc).entries) :
    ∀ e2 ∈ st.entries, e.lastTouch ≤ e2.lastTouch := by
  obtain ⟨hcap, hlen, hclock, hsort⟩ := h
  have hsub : (st.entries.filter fun x => x.sid ≠ id).Sublist st.entries :=
    List.filter_sublist _
  have hpos : 1 ≤ st.capacity := by
    have h0 := List.length_pos_of_mem he
    rw [hcap]
    omega
  have hene : e.sid ≠ id := by
    intro hsid
    refine hgone ?_
    rw [hsid]
    exact sid_mem_storeTouch st id nc hpos
  have hef : e ∈ st.entries.filter fun x => x.sid ≠ id := by
    rw [List.mem_filter]
    exact ⟨he, by simp [hene]⟩
  have hmin := pushCapped_evicted_min (hsort.sublist hsub) hef hgone
  have hflen : (st.entries.filter fun x => x.sid ≠ id).length
      = st.entries.length := by
    have h1 := hsub.length_le
    have h2 := hmin.1
    rw [hcap] at h2
    omega
  have hfeq : (st.entries.filter fun x => x.sid ≠ id) = st.entries :=
    hsub.eq_of_length hflen
  intro e2 he2
  refine hmin.2 e2 ?_
  rw [hfeq]
  exact he2

/-- Claim C5: for every capacity and every sequence of `get_or_create` and
`put` operations, the Session Store never holds more than its capacity of
sessions, and whenever the next operation makes a held session id
disappear (an eviction), that session's last touch is no later than every
other held session's last touch: eviction removes exactly the
least-recently-touched session.  Instantiating the capacity at 100 gives
the reference configuration. -/
theorem sessionStore_capacity_lru (capacity : Nat) (ops : List StoreOp) :
    (runOps capacity ops).entries.length ≤ capacity ∧
    (∀ op e, e ∈ (runOps capacity ops).entries →
      e.sid ∉ storeIds (applyOp (runOps capacity ops) op).entries →
      ∀ e2 ∈ (runOps capacity ops).entries, e.lastTouch ≤ e2.lastTouch) := by
  have hinv := storeInv_runOps capacity ops
  refine ⟨hinv.2.1, ?_⟩
  intro op e he hgone
  cases op with
  | getOrCreate id => exact storeTouch_evicts_lru hinv id none he hgone
  | put id content => exact storeTouch_evicts_lru hinv id (some content) he hgone

/-- Witness for C5: a store of capacity 2 holding sessions A (touched at
time 0) and B (touched at time 1); creating session C evicts A, whose last
touch indeed precedes B's. -/
theorem sessionStore_capacity_lru_witness :
    (runOps 2 [StoreOp.getOrCreate "A", StoreOp.getOrCreate "B"]).entries.length
        ≤ 2 ∧
    ({ sid := "A", lastTouch := 0, content := "" } : StoreEntry).lastTouch ≤
      ({ sid := "B", lastTouch := 1, content := "" } : StoreEntry).lastTouch := by
  have h := sessionStore_capacity_lru 2
    [StoreOp.getOrCreate "A", StoreOp.getOrCreate "B"]
  refine ⟨h.1, ?_⟩
  exact h.2 (StoreOp.getOrCreate "C")
    { sid := "A", lastTouch := 0, content := "" } (by decide) (by decide)
    { sid := "B", lastTouch := 1, content := "" } (by decide)

/-- A doctor's address as used by `mcpserver.py`: the two-letter state
code and the city name (`doc["address"]["state"]`, `doc["address"]["city"]`). -/
structure Address where
  state : String
  city : String
deriving DecidableEq

/-- One record of the doctor database loaded from `data/doctors.json`;
only the fields `list_doctors` reads are modelled. -/
structure Doctor where
  name : String
  address : Address
deriving DecidableEq

/-- One element of the JSON list returned by `list_doctors`: either a
doctor record or the single error record `[{"error": ...}]`. -/
inductive DoctorRecord
  | doctor (d : Doctor)
  | error (msg : String)
deriving DecidableEq

/-- Python truthiness of an optional string: `None` and the empty string
are falsy (`not state` in `mcpserver.py`). -/
def pyTruthy : Option String → Bool
  | none => false
  | some s => s != ""

/-- Python's `str.lower()` on one character: an ASCII uppercase letter is
shifted to its lowercase form, any other character is unchanged. -/
def pyLowerChar (c : Char) : Char :=
  if 'A' ≤ c ∧ c ≤ 'Z' then Char.ofNat (c.toNat + 32) else c

/-- Python's `str.lower()`: lowercase every character. -/
def pyLower (s : String) : String :=
  String.mk (s.data.map pyLowerChar)

/-- Python's `str.strip()`: remove leading and trailing whitespace. -/
def pyStrip (s : String) : String :=
  String.mk (((s.data.dropWhile Char.isWhitespace).reverse.dropWhile
    Char.isWhitespace).reverse)

/-- The target filter computed by `mcpserver.py`:
`state.strip().lower() if state else None`. -/
def normFilter : Option String → Option String
  | none => none
  | some s => if s != "" then some (pyLower (pyStrip s)) else none

/-- One conjunct of the list-comprehension condition in `mcpserver.py`:
`not target_state or doc["address"]["state"].lower() == target_state`. -/
def matchesFilter (target : Option String) (field : String) : Bool :=
  !pyTruthy target || (pyLower field == target.getD "")

/-- The `list_doctors` tool of `mcpserver.py` (lines 31-56): with no truthy
filter it returns the single error record; otherwise it filters the loaded
doctor database by the trimmed, lowercased filters, an absent or falsy
filter imposing no constraint. -/
def list_doctors (doctors : List Doctor) (state city : Option String) :
    List DoctorRecord :=
  if !pyTruthy state && !pyTruthy city then
    [DoctorRecord.error "Please provide a state or a city."]
  else
    (doctors.filter fun doc =>
      matchesFilter (normFilter state) doc.address.state &&
      matchesFilter (normFilter city) doc.address.city).map DoctorRecord.doctor

/-- A call to the `list_doctors` tool together with the state of the
module-level doctor database after the call: the source only ever reads
`doctors`, so the database after the call is the database before it. -/
def list_doctors_call (doctors : List Doctor) (state city : Option String) :
    List DoctorRecord × List Doctor :=
  (list_doctors doctors state city, doctors)

/-- Claim C6: when both filters are absent, `list_doctors` returns the
single explicit error record rather than matching records, and the
underlying doctor database is unchanged by the call. -/
theorem list_doctors_no_filters (db : List Doctor) :
    list_doctors_call db none none =
      ([DoctorRecord.error "Please provide a state or a city."], db) := rfl

/-- The lookup as claim C7 words it: a doctor matches when its address
state equals the supplied state and its address city equals the supplied
city, each comparison case-insensitive after trimming surrounding
whitespace, an absent filter imposing no constraint, in database order. -/
def list_doctors_claimedSpec (doctors : List Doctor)
    (state city : Option String) : List DoctorRecord :=
  (doctors.filter fun doc =>
    (match state with
     | none => true
     | some s => pyLower (pyStrip doc.address.state) == pyLower (pyStrip s)) &&
    (match city with
     | none => true
     | some s => pyLower (pyStrip doc.address.city) == pyLower (pyStrip s))).map
    DoctorRecord.doctor

/-- The doctor record used by the C7 counterexample and the C9 witness. -/
def cexDoctor : Doctor :=
  { name := "Dr Ann", address := { state := "ca", city := "austin" } }

/-- Counterexample to claim C7 as stated: with the whitespace-only filter
`state = " "` supplied (so at least one filter is supplied), the code
treats the filter, which trims to the empty string, as no constraint and
returns the doctor, while equality against the trimmed lowercased filter
would return no doctors. -/
theorem list_doctors_claim_counterexample :
    list_doctors [cexDoctor] (some " ") none ≠
      list_doctors_claimedSpec [cexDoctor] (some " ") none := by decide

/-- The lookup as the amended claim C7 words it: a supplied filter is
normalized by trimming surrounding whitespace and lowercasing; a filter
that is absent, empty, or whose normalized form is empty imposes no
constraint; otherwise a doctor matches when its lowercased (untrimmed)
address field equals the normalized filter; matching doctors are returned
in database order. -/
def list_doctors_amendedSpec (doctors : List Doctor)
    (state city : Option String) : List DoctorRecord :=
  (doctors.filter fun doc =>
    (match state with
     | none => true
     | some s =>
        if pyLower (pyStrip s) == "" then true
        else pyLower doc.address.state == pyLower (pyStrip s)) &&
    (match city with
     | none => true
     | some s =>
        if pyLower (pyStrip s) == "" then true
        else pyLower doc.address.city == pyLower (pyStrip s))).map
    DoctorRecord.doctor

theorem matchesFilter_amended (f : Option String) (field : String) :
    matchesFilter (normFilter f) field =
      (match f with
       | none => true
       | some s =>
          if pyLower (pyStrip s) == "" then true
          else pyLower field == pyLower (pyStrip s)) := by
  cases f with
  | none => rfl
  | some s =>
    by_cases hs : s = ""
    · subst hs
      rfl
    · by_cases ht : pyLower (pyStrip s) = ""
      · simp [matchesFilter, normFilter, pyTruthy, hs, ht]
      · simp [matchesFilter, normFilter, pyTruthy, hs, ht]

/-- Claim C7 as amended: whenever at least one truthy filter is supplied,
`list_doctors` returns exactly the doctors matched by the amended
description (normalized filters; a filter normalizing to the empty string
imposes no constraint; lowercased untrimmed doctor fields), in database
order. -/
theorem list_doctors_matches_amendedSpec (db : List Doctor)
    (state city : Option String)
    (h : pyTruthy state = true ∨ pyTruthy city = true) :
    list_doctors db state city = list_doctors_amendedSpec db state city := by
  have hcond : (!pyTruthy state && !pyTruthy city) = false := by
    rcases h with h0 | h0 <;> simp [h0]
  unfold list_doctors list_doctors_amendedSpec
  rw [hcond]
  simp only [Bool.false_eq_true, if_false]
  refine congrArg _ (List.filter_congr ?_)
  intro doc _
  rw [matchesFilter_amended state doc.address.state,
    matchesFilter_amended city doc.address.city]

/-- Witness for the amended claim C7: the supplied filter `state = "CA"`
is truthy, and on the one-doctor database the code and the amended
description agree. -/
theorem list_doctors_matches_amendedSpec_witness :
    list_doctors [cexDoctor] (some "CA") none =
      list_doctors_amendedSpec [cexDoctor] (some "CA") none :=
  list_doctors_matches_amendedSpec [cexDoctor] (some "CA") none
    (Or.inl (by decide))

/-- Claim C9: with both filters supplied as non-empty whitespace-only
strings, `list_doctors` bypasses the zero-filter error check (both strings
are truthy) yet, after trimming, applies no constraint at all, and
therefore returns the entire doctor database instead of an error result. -/
theorem list_doctors_whitespace_only (db : List Doctor) (s c : String)
    (hs : s ≠ "") (hst : pyStrip s = "") (hc : c ≠ "") (hct : pyStrip c = "") :
    list_doctors db (some s) (some c) = db.map DoctorRecord.doctor := by
  have hs0 : pyLower (pyStrip s) = "" := by rw [hst]; rfl
  have hc0 : pyLower (pyStrip c) = "" := by rw [hct]; rfl
  have hcond : (!pyTruthy (some s) && !pyTruthy (some c)) = false := by
    simp [pyTruthy, hs]
  unfold list_doctors
  rw [hcond]
  simp only [Bool.false_eq_true, if_false]
  have hmfs : ∀ field, matchesFilter (normFilter (some s)) field = true := by
    intro field
    simp [matchesFilter, normFilter, pyTruthy, hs, hs0]
  have hmfc : ∀ field, matchesFilter (normFilter (some c)) field = true := by
    intro field
    simp [matchesFilter, normFilter, pyTruthy, hc, hc0]
  have hall : ∀ doc ∈ db,
      (matchesFilter (normFilter (some s)) doc.address.state &&
        matchesFilter (normFilter (some c)) doc.address.city) = true := by
    intro doc _
    rw [hmfs, hmfc]
    rfl
  rw [List.filter_eq_self.mpr hall]

/-- Witness for C9: both filters are the one-space string; the call
returns the whole one-doctor database. -/
theorem list_doctors_whitespace_only_witness :
    list_doctors [cexDoctor] (some " ") (some " ") =
      [cexDoctor].map DoctorRecord.doctor :=
  list_doctors_whitespace_only [cexDoctor] " " " "
    (by decide) (by decide) (by decide) (by decide)

/-- The dollar-sign escaping applied by `PolicyAgent.answer_query`
(`policy_agent.py`, the final `.replace("$", r"\$")`), embedded on the
character list of the model's answer. -/
def escapeDollars : List Char → List Char
  | [] => []
  | c :: rest =>
    if c = '$' then '\\' :: '$' :: escapeDollars rest
    else c :: escapeDollars rest

/-- `PolicyAgent.answer_query` as a function of the model's response text:
the litellm completion call is an external collaborator, and the method
returns `response.choices[0].message.content.replace("$", r"\$")`. -/
def answer_query (modelAnswer : String) : String :=
  String.mk (escapeDollars modelAnswer.data)

theorem escapeDollars_join (cs : List Char) :
    escapeDollars cs =
      (cs.map fun c => if c = '$' then ['\\', '$'] else [c]).flatten := by
  induction cs with
  | nil => rfl
  | cons c rest ih =>
    by_cases hc : c = '$'
    · subst hc
      simp [escapeDollars, ih]
    · simp [escapeDollars, hc, ih]

theorem escapeDollars_guarded (cs : List Char) :
    ∀ i, (escapeDollars cs)[i]? = some '$' →
      ∃ j, i = j + 1 ∧ (escapeDollars cs)[j]? = some '\\' := by
  induction cs with
  | nil =>
    intro i h
    simp [escapeDollars] at h
  | cons c rest ih =>
    intro i h
    by_cases hc : c = '$'
    · subst hc
      simp only [escapeDollars, if_pos] at h
      cases i with
      | zero => simp at h
      | succ n =>
        cases n with
        | zero => exact ⟨0, rfl, by simp [escapeDollars]⟩
        | succ m =>
          obtain ⟨j, hj1, hj2⟩ := ih m (by simpa using h)
          refine ⟨j + 2, by omega, ?_⟩
          simp only [escapeDollars, if_pos]
          simpa using hj2
    · simp only [escapeDollars, if_neg hc] at h
      cases i with
      | zero =>
        simp at h
        exact absurd h hc
      | succ n =>
        obtain ⟨j, hj1, hj2⟩ := ih n (by simpa using h)
        refine ⟨j + 1, by omega, ?_⟩
        simp only [escapeDollars, if_neg hc]
        simpa using hj2

/-- Claim C10: `answer_query` returns the model's response text with every
occurrence of "$" replaced by "\$" (every other character kept unchanged,
in order), and consequently every "$" in the returned string is
immediately preceded by the backslash introduced by the replacement. -/
theorem answer_query_dollar_escaping (s : String) :
    (answer_query s).data =
      (s.data.map fun c => if c = '$' then ['\\', '$'] else [c]).flatten ∧
    ∀ i, (answer_query s).data[i]? = some '$' →
      ∃ j, i = j + 1 ∧ (answer_query s).data[j]? = some '\\' :=
  ⟨escapeDollars_join s.data, escapeDollars_guarded s.data⟩

/-- Witness for C10: on the model answer "a$b" the dollar at index 2 of
the returned text is preceded by the introduced backslash at index 1. -/
theorem answer_query_dollar_escaping_witness :
    (answer_query "a$b").data =
      (("a$b" : String).data.map fun c =>
        if c = '$' then ['\\', '$'] else [c]).flatten ∧
    ∃ j, 2 = j + 1 ∧ (answer_query "a$b").data[j]? = some '\\' := by
  have h := answer_query_dollar_escaping "a$b"
  exact ⟨h.1, h.2 2 (by decide)⟩
